import Mathlib

/-!
Verification of the `lifted` parser-combinator library
(`src/lifted/__init__.py`) against its specification.

The embedding is shallow: Python strings become `List Char`, a Python
`ParseState` namedtuple becomes the structure `ParseState`, a `Parsing`
namedtuple becomes `Parsing`, and a parser (a function from `ParseState`
to `Optional[Parsing]`) becomes `Parser := ParseState → Option Parsing`,
with `none` standing for Python `None` (parse failure).  Python's
dynamically typed parse values are embedded in the inductive `Value`
(`None`, strings, and lists of values are the only value shapes the
library itself constructs).  `while` loops are translated into structural
recursions that advance in lockstep with the loop variable; the one loop
whose iteration count is not bounded by the remaining input (the body of
`many`, which need not make progress when the element parser succeeds
without consuming) is translated with an explicit fuel parameter, `none`
meaning the loop has not returned within that much fuel.
-/

namespace Lifted

/-- A parse value: Python `None`, a Python string, or a Python list of
values.  These are the only shapes of values the library's own parsers
produce (`char` and friends produce strings, `end_of_input` and empty
`take_while ... allow_empty` produce `None`, `many`/`sequence` produce
lists). -/
inductive Value : Type where
  | vnone : Value
  | vstr : List Char → Value
  | vlist : List Value → Value

/-- The current location of the parser: `ParseState = namedtuple('ParseState', ['text', 'pos'])`. -/
structure ParseState : Type where
  text : List Char
  pos : Nat
deriving DecidableEq, Repr

/-- A value from a parser, and the next parse state:
`Parsing = namedtuple('Parsing', ['value', 'parse_state'])`. -/
structure Parsing : Type where
  value : Value
  parse_state : ParseState

/-- `Parser: TypeAlias = Callable[[ParseState], Optional[Parsing]]`. -/
def Parser : Type := ParseState → Option Parsing

/-- The scan loop of `parse_string`: `while i < len_s and parse_state.text[pos] == s[i]: pos += 1; i += 1`.
The remaining characters of `s` (from index `i` on) drive the recursion; `pos`
advances in lockstep with `i`.  Returns the final `pos`. -/
def psLoop (text : List Char) : Nat → List Char → Nat
  | pos, [] => pos
  | pos, c :: rest =>
    if text.get? pos = some c then psLoop text (pos + 1) rest else pos

/-- `parse_string(parse_state, s)`: parse a specific string (lines 26-42). -/
def parse_string (parse_state : ParseState) (s : List Char) : Option Parsing :=
  if parse_state.pos + s.length > parse_state.text.length then none
  else
    let pos := psLoop parse_state.text parse_state.pos s
    if pos - parse_state.pos = s.length then
      some ⟨Value.vstr ((parse_state.text.drop parse_state.pos).take (pos - parse_state.pos)),
            ⟨parse_state.text, pos⟩⟩
    else none

/-- `end_of_input(parse_state)`: match the end of text, return a value of `None` (lines 75-79). -/
def end_of_input : Parser := fun parse_state =>
  if parse_state.text.length = parse_state.pos then some ⟨Value.vnone, parse_state⟩
  else none

/-- The scan loop shared (up to the character predicate) by `take_while`,
`digits` and `whitespace`: `while pos < len_input and match_char_fn(text[pos]): pos += 1`.
The list argument is `text.drop pos`, which advances in lockstep with `pos`;
returns the final `pos`. -/
def twLoop (match_char_fn : Char → Bool) : List Char → Nat → Nat
  | [], pos => pos
  | c :: rest, pos =>
    if match_char_fn c then twLoop match_char_fn rest (pos + 1) else pos

/-- `digits(parse_state)`: parse 1+ digits (lines 82-91).  Python's
`str.isdigit` is embedded as `Char.isDigit`. -/
def digits : Parser := fun parse_state =>
  let pos := twLoop Char.isDigit (parse_state.text.drop parse_state.pos) parse_state.pos
  if pos ≠ parse_state.pos then
    some ⟨Value.vstr ((parse_state.text.drop parse_state.pos).take (pos - parse_state.pos)),
          ⟨parse_state.text, pos⟩⟩
  else none

/-- `whole(parser)`: the parser must match the remainder of the input (lines 94-102). -/
def whole (parser : Parser) : Parser := fun parse_state =>
  match parser parse_state with
  | some parsing =>
    match end_of_input parsing.parse_state with
    | some _ => some parsing
    | none => none
  | none => none

/-- `option(parser, otherwise)`: succeed even when the given parser does not
(lines 105-117); the Python default for `otherwise` is `None`, i.e. `Value.vnone`. -/
def option (parser : Parser) (otherwise : Value) : Parser := fun parse_state =>
  match parser parse_state with
  | some parsing => some parsing
  | none => some ⟨otherwise, parse_state⟩

/-- `whitespace(parse_state)`: parse 1+ whitespaces, value is just a single
space (lines 120-128).  Python's `str.isspace` is embedded as `Char.isWhitespace`. -/
def whitespace : Parser := fun parse_state =>
  let pos := twLoop Char.isWhitespace (parse_state.text.drop parse_state.pos) parse_state.pos
  if pos ≠ parse_state.pos then some ⟨Value.vstr [' '], ⟨parse_state.text, pos⟩⟩
  else none

/-- `skip_space(parser, fail_without_whitespace)` (lines 131-142). -/
def skip_space (parser : Parser) (fail_without_whitespace : Bool) : Parser := fun parse_state =>
  match whitespace parse_state with
  | none => if fail_without_whitespace then none else parser parse_state
  | some parsing => parser parsing.parse_state

/-- `chomp_space(parser)`: eat the space prior to a parser (lines 145-147). -/
def chomp_space (parser : Parser) : Parser :=
  skip_space parser false

/-- `char(ch)`: a parser for a specific char (lines 150-159).  The Python
`assert len(ch) == 1` is discharged by the `Char` type. -/
def char (ch : Char) : Parser := fun parse_state =>
  match parse_state.text.get? parse_state.pos with
  | some c =>
    if c = ch then some ⟨Value.vstr [ch], ⟨parse_state.text, parse_state.pos + 1⟩⟩
    else none
  | none => none

/-- `not_char(ch)`: a parser for anything but a specific char (lines 162-172). -/
def not_char (ch : Char) : Parser := fun parse_state =>
  match parse_state.text.get? parse_state.pos with
  | some c =>
    if c ≠ ch then some ⟨Value.vstr [c], ⟨parse_state.text, parse_state.pos + 1⟩⟩
    else none
  | none => none

/-- `take_while(match_char_fn, allow_empty)`: match while a match function
returns `True` (lines 175-189). -/
def take_while (match_char_fn : Char → Bool) (allow_empty : Bool) : Parser := fun parse_state =>
  let pos := twLoop match_char_fn (parse_state.text.drop parse_state.pos) parse_state.pos
  if pos ≠ parse_state.pos then
    some ⟨Value.vstr ((parse_state.text.drop parse_state.pos).take (pos - parse_state.pos)),
          ⟨parse_state.text, pos⟩⟩
  else if allow_empty then some ⟨Value.vnone, ⟨parse_state.text, pos⟩⟩
  else none

/-- `until(match_char_fn)`: match until the given predicate matches (lines
192-194); in the source, literally `take_while(lambda x: not match_char_fn(x))`
with `allow_empty` left at its default `False` (the name carries a trailing
underscore because `until` is a Lean keyword). -/
def until_ (match_char_fn : Char → Bool) : Parser :=
  take_while (fun x => ! match_char_fn x) false

/-- `string(s)`: a parser for a specific string (lines 197-199). -/
def string (s : List Char) : Parser := fun parse_state =>
  parse_string parse_state s

/-- `lift(fn, parser)`: like `fmap` for a parser (lines 202-210). -/
def lift (fn : Value → Value) (parser : Parser) : Parser := fun parse_state =>
  match parser parse_state with
  | some parsing => some ⟨fn parsing.value, parsing.parse_state⟩
  | none => none

/-- The `sep_by` argument of `many`/`many1`: Python `None`, a Python string,
or a parser. -/
inductive SepBy : Type where
  | none : SepBy
  | str : List Char → SepBy
  | parser : Parser → SepBy

/-- The normalization at the top of `many` (lines 215-218): a string
separator is wrapped as `string(sep_by)`, a parser is used as is. -/
def normalizeSep : SepBy → Option Parser
  | SepBy.none => Option.none
  | SepBy.str s => Option.some (string s)
  | SepBy.parser p => Option.some p

/-- The `while True` loop in the body of `many` (lines 220-240), with the
loop state (`parse_state`, `prior_parse_state`, `results`) passed
explicitly and an explicit fuel bound on the number of iterations:
`none` means the loop has not returned within `fuel` iterations (when the
element parser can succeed without consuming input the Python loop need
not terminate, so no fuel bound computed from the input can be faithful
for every parser).  One unit of fuel is one iteration of `while True`:

* element parser fails → `return Parsing(results, prior_parse_state)`;
* element parser succeeds, no separator → `prior_parse_state = parse_state`
  and loop;
* element succeeds, separator fails → `break`, then
  `return Parsing(results, parse_state)` (the state right after the element);
* element and separator succeed → `prior_parse_state` is the state right
  after the element, `parse_state` the state after the separator, and loop. -/
def manyLoop (parser : Parser) (parse_separator : Option Parser) :
    Nat → ParseState → ParseState → List Value → Option (List Value × ParseState)
  | 0, _, _, _ => Option.none
  | fuel + 1, parse_state, prior_parse_state, results =>
    match parser parse_state with
    | Option.none => Option.some (results, prior_parse_state)
    | Option.some parsing =>
      match parse_separator with
      | Option.none =>
        manyLoop parser parse_separator fuel
          parsing.parse_state parsing.parse_state (results ++ [parsing.value])
      | Option.some sep =>
        match sep parsing.parse_state with
        | Option.none => Option.some (results ++ [parsing.value], parsing.parse_state)
        | Option.some sepParsing =>
          manyLoop parser parse_separator fuel
            sepParsing.parse_state parsing.parse_state (results ++ [parsing.value])

/-- `many(parser, sep_by)` run with `fuel` iterations of its loop, from the
initial loop state `results = []`, `prior_parse_state = parse_state`
(lines 213-241). -/
def many (parser : Parser) (sep_by : SepBy) (fuel : Nat) (parse_state : ParseState) :
    Option (List Value × ParseState) :=
  manyLoop parser (normalizeSep sep_by) fuel parse_state parse_state []

/-- `many(parser, sep_by)` invoked at `parse_state` returns `r`: its loop
returns `r` within some finite number of iterations. -/
def ManyReturns (parser : Parser) (sep_by : SepBy) (parse_state : ParseState)
    (r : List Value × ParseState) : Prop :=
  ∃ fuel, many parser sep_by fuel parse_state = Option.some r

/-- `many(parser, sep_by)` invoked at `parse_state` never returns: no number
of loop iterations suffices (the Python call diverges). -/
def ManyDiverges (parser : Parser) (sep_by : SepBy) (parse_state : ParseState) : Prop :=
  ∀ fuel, many parser sep_by fuel parse_state = Option.none

/-- `many1(parser, sep_by)` (lines 244-253) run with `fuel` iterations of
the underlying `many` loop.  The outer `Option` is the fuel bound of that
loop; the inner `Option` is the parse outcome.  Python tests
`if parsing and parsing.value:`; `parsing` is always a (truthy) `Parsing`
when `many` returns, and `parsing.value` is a list, truthy exactly when
non-empty. -/
def many1Run (parser : Parser) (sep_by : SepBy) (fuel : Nat) (parse_state : ParseState) :
    Option (Option Parsing) :=
  match many parser sep_by fuel parse_state with
  | Option.none => Option.none
  | Option.some (vs, st) =>
    match vs with
    | [] => Option.some Option.none
    | _ :: _ => Option.some (Option.some ⟨Value.vlist vs, st⟩)

/-- What a call to the parser built by `any_of` can do (lines 256-270):
return a `Parsing`, return `None`, or raise `AssertionError` from
`assert parsing.parse_state.pos > parse_state.pos`. -/
inductive AnyOfOutcome : Type where
  | ok : Parsing → AnyOfOutcome
  | fail : AnyOfOutcome
  | assertionError : AnyOfOutcome

/-- `any_of(parsers)` (lines 256-270): try the parsers in order; on the
first success, assert that the cursor strictly advanced and return that
success; return `None` when the list is exhausted. -/
def any_of (parsers : List Parser) : ParseState → AnyOfOutcome := fun parse_state =>
  match parsers with
  | [] => AnyOfOutcome.fail
  | parser :: rest =>
    match parser parse_state with
    | Option.some parsing =>
      if parsing.parse_state.pos > parse_state.pos then AnyOfOutcome.ok parsing
      else AnyOfOutcome.assertionError
    | Option.none => any_of rest parse_state

/-- What a call to the parser built by `sequence` can do (lines 273-285):
return a `Parsing`, return `None` (some component parser failed), or raise
`NameError` — the final `return Parsing(results, parsing.parse_state)`
reads the loop variable `parsing`, which was never bound when the list of
parsers is empty. -/
inductive SeqResult : Type where
  | ok : Parsing → SeqResult
  | fail : SeqResult
  | nameError : SeqResult

/-- The `for parser in parsers` loop of `sequence` (lines 277-283):
threads the parse state, accumulates the values, `return None` on the
first failure. -/
def seqLoop : List Parser → ParseState → List Value → Option (List Value × ParseState)
  | [], parse_state, results => Option.some (results, parse_state)
  | parser :: rest, parse_state, results =>
    match parser parse_state with
    | Option.none => Option.none
    | Option.some parsing => seqLoop rest parsing.parse_state (results ++ [parsing.value])

/-- `sequence(parsers)` (lines 273-285).  With an empty parser list the
loop body never runs and the final statement reads the unbound variable
`parsing`, raising `NameError`; otherwise `parsing.parse_state` is the
state threaded out of the last (successful) component. -/
def sequence (parsers : List Parser) : ParseState → SeqResult := fun parse_state =>
  match parsers with
  | [] => SeqResult.nameError
  | _ :: _ =>
    match seqLoop parsers parse_state [] with
    | Option.none => SeqResult.fail
    | Option.some (vs, st) => SeqResult.ok ⟨Value.vlist vs, st⟩

/-- `strings(*args)` (lines 288-297): try `parse_string` for each argument
in order. -/
def strings : List (List Char) → Parser
  | [], _ => Option.none
  | arg :: rest, parse_state =>
    match parse_string parse_state arg with
    | Option.some parsing => Option.some parsing
    | Option.none => strings rest parse_state

/-- `parse_until_colon_or_whitespace` (lines 300-301). -/
def parse_until_colon_or_whitespace : Parser :=
  until_ (fun ch => ch = ':' || ch.isWhitespace)

/-- The spec's notion of successful sequencing: each parser succeeds,
consuming from the prior's end state in order, producing the ordered list
of the component values and the final state. -/
inductive SeqThread : List Parser → ParseState → List Value → ParseState → Prop where
  | nil (parse_state : ParseState) : SeqThread [] parse_state [] parse_state
  | cons {parser : Parser} {rest : List Parser} {parse_state : ParseState} {v : Value}
      {st1 : ParseState} {vs : List Value} {st2 : ParseState}
      (h : parser parse_state = Option.some ⟨v, st1⟩) (hrest : SeqThread rest st1 vs st2) :
      SeqThread (parser :: rest) parse_state (v :: vs) st2

/-- The spec's notion of ordered alternation: `pr` is the outcome of the
first parser in the list that succeeds at `parse_state` (all earlier
parsers fail there). -/
inductive FirstSuccess : List Parser → ParseState → Parsing → Prop where
  | head {parser : Parser} {rest : List Parser} {parse_state : ParseState} {pr : Parsing}
      (h : parser parse_state = Option.some pr) :
      FirstSuccess (parser :: rest) parse_state pr
  | tail {parser : Parser} {rest : List Parser} {parse_state : ParseState} {pr : Parsing}
      (h : parser parse_state = Option.none) (hrest : FirstSuccess rest parse_state pr) :
      FirstSuccess (parser :: rest) parse_state pr

/-- The spec's cursor invariant for one parser: applied at a position
within `[0, length text]`, a success returns a cursor over the same,
unmodified text whose position is again within `[0, length text]`. -/
def BoundsOK (parser : Parser) : Prop :=
  ∀ (parse_state : ParseState) (pr : Parsing),
    parse_state.pos ≤ parse_state.text.length →
    parser parse_state = Option.some pr →
    pr.parse_state.text = parse_state.text ∧ pr.parse_state.pos ≤ parse_state.text.length

/-- A parser that strictly advances the cursor whenever it succeeds. -/
def Progresses (parser : Parser) : Prop :=
  ∀ (parse_state : ParseState) (pr : Parsing),
    parser parse_state = Option.some pr → parse_state.pos < pr.parse_state.pos

theorem psLoop_ge (text : List Char) (s : List Char) :
    ∀ pos : Nat, pos ≤ psLoop text pos s := by
  induction s with
  | nil => intro pos; exact Nat.le_refl pos
  | cons c rest ih =>
    intro pos
    simp only [psLoop]
    split
    · exact Nat.le_trans (Nat.le_succ pos) (ih (pos + 1))
    · exact Nat.le_refl pos

theorem psLoop_le (text : List Char) (s : List Char) :
    ∀ pos : Nat, psLoop text pos s ≤ pos + s.length := by
  induction s with
  | nil => intro pos; simp [psLoop]
  | cons c rest ih =>
    intro pos
    simp only [psLoop, List.length_cons]
    split
    · exact Nat.le_trans (ih (pos + 1)) (by omega)
    · omega

theorem twLoop_ge (f : Char → Bool) (l : List Char) :
    ∀ pos : Nat, pos ≤ twLoop f l pos := by
  induction l with
  | nil => intro pos; exact Nat.le_refl pos
  | cons c rest ih =>
    intro pos
    simp only [twLoop]
    split
    · exact Nat.le_trans (Nat.le_succ pos) (ih (pos + 1))
    · exact Nat.le_refl pos

theorem twLoop_le (f : Char → Bool) (l : List Char) :
    ∀ pos : Nat, twLoop f l pos ≤ pos + l.length := by
  induction l with
  | nil => intro pos; simp [twLoop]
  | cons c rest ih =>
    intro pos
    simp only [twLoop, List.length_cons]
    split
    · exact Nat.le_trans (ih (pos + 1)) (by omega)
    · omega

/-- Shape of a `parse_string` success: same text, position advanced by
exactly the length of `s`, and the end position within the input. -/
theorem parse_string_some (parse_state : ParseState) (s : List Char) (pr : Parsing)
    (h : parse_string parse_state s = Option.some pr) :
    pr.parse_state.text = parse_state.text ∧
    pr.parse_state.pos = parse_state.pos + s.length ∧
    parse_state.pos + s.length ≤ parse_state.text.length := by
  unfold parse_string at h
  split at h
  · exact absurd h (by simp)
  · rename_i hguard
    simp only [] at h
    split at h
    · rename_i hlen
      have hge := psLoop_ge parse_state.text s parse_state.pos
      have hpos : psLoop parse_state.text parse_state.pos s = parse_state.pos + s.length := by
        omega
      cases h
      refine ⟨rfl, ?_, ?_⟩
      · exact hpos
      · omega
    · exact absurd h (by simp)

/-- Shape of a `char` success: the position is in range and advances by one,
over the same text. -/
theorem char_some (ch : Char) (parse_state : ParseState) (pr : Parsing)
    (h : char ch parse_state = Option.some pr) :
    pr = ⟨Value.vstr [ch], ⟨parse_state.text, parse_state.pos + 1⟩⟩ ∧
    parse_state.pos < parse_state.text.length := by
  unfold char at h
  split at h
  · rename_i c hget
    split at h
    · cases h
      exact ⟨rfl, (List.get?_eq_some.mp hget).1⟩
    · exact absurd h (by simp)
  · exact absurd h (by simp)

/-- Shape of a `not_char` success. -/
theorem not_char_some (ch : Char) (parse_state : ParseState) (pr : Parsing)
    (h : not_char ch parse_state = Option.some pr) :
    pr.parse_state = ⟨parse_state.text, parse_state.pos + 1⟩ ∧
    parse_state.pos < parse_state.text.length := by
  unfold not_char at h
  split at h
  · rename_i c hget
    split at h
    · cases h
      exact ⟨rfl, (List.get?_eq_some.mp hget).1⟩
    · exact absurd h (by simp)
  · exact absurd h (by simp)

/-- Shape of a `take_while` success: same text, the final position is the
one computed by the scan loop, and with `allow_empty = false` the scan
consumed at least one character. -/
theorem take_while_some (f : Char → Bool) (allow_empty : Bool) (parse_state : ParseState)
    (pr : Parsing) (h : take_while f allow_empty parse_state = Option.some pr) :
    pr.parse_state.text = parse_state.text ∧
    pr.parse_state.pos = twLoop f (parse_state.text.drop parse_state.pos) parse_state.pos ∧
    (allow_empty = false → parse_state.pos ≠ pr.parse_state.pos) := by
  unfold take_while at h
  simp only [] at h
  split at h
  · rename_i hne
    cases h
    exact ⟨rfl, rfl, fun _ => fun heq => hne heq.symm⟩
  · rename_i heq
    split at h
    · rename_i hae
      cases h
      exact ⟨rfl, rfl, fun hfalse => absurd hae (by simp [hfalse])⟩
    · exact absurd h (by simp)

/-- Shape of a `digits` success. -/
theorem digits_some (parse_state : ParseState) (pr : Parsing)
    (h : digits parse_state = Option.some pr) :
    pr.parse_state.text = parse_state.text ∧
    pr.parse_state.pos =
      twLoop Char.isDigit (parse_state.text.drop parse_state.pos) parse_state.pos ∧
    parse_state.pos ≠ pr.parse_state.pos := by
  unfold digits at h
  simp only [] at h
  split at h
  · rename_i hne
    cases h
    exact ⟨rfl, rfl, fun heq => hne heq.symm⟩
  · exact absurd h (by simp)

/-- Shape of a `whitespace` success. -/
theorem whitespace_some (parse_state : ParseState) (pr : Parsing)
    (h : whitespace parse_state = Option.some pr) :
    pr.parse_state.text = parse_state.text ∧
    pr.parse_state.pos =
      twLoop Char.isWhitespace (parse_state.text.drop parse_state.pos) parse_state.pos ∧
    parse_state.pos ≠ pr.parse_state.pos := by
  unfold whitespace at h
  simp only [] at h
  split at h
  · rename_i hne
    cases h
    exact ⟨rfl, rfl, fun heq => hne heq.symm⟩
  · exact absurd h (by simp)

/-- Shape of an `end_of_input` success: nothing moves. -/
theorem end_of_input_some (parse_state : ParseState) (pr : Parsing)
    (h : end_of_input parse_state = Option.some pr) :
    pr = ⟨Value.vnone, parse_state⟩ ∧ parse_state.text.length = parse_state.pos := by
  unfold end_of_input at h
  split at h
  · rename_i heq
    cases h
    exact ⟨rfl, heq⟩
  · exact absurd h (by simp)

/-- C4 counterexample: the claim admits an empty literal argument, but
`literal("")` (i.e. `parse_string` with the empty string) succeeds at
position 0 of `"ab"` without advancing: the returned cursor is the start
cursor, so the resulting position does not strictly exceed the starting
position. -/
theorem parse_string_empty_literal_zero_width :
    parse_string ⟨['a', 'b'], 0⟩ [] =
      Option.some ⟨Value.vstr [], ⟨['a', 'b'], 0⟩⟩ := rfl

/-- C4 (amended): on success, the resulting position strictly exceeds the
starting position for `literal(s)` with `s` non-empty, for `char`,
`take_while` with `allow_empty = false`, `digits` and `whitespace`
(`literal("")` succeeds at zero width, so the empty literal is excluded). -/
theorem primitives_strict_progress :
    (∀ (parse_state : ParseState) (s : List Char) (pr : Parsing), s ≠ [] →
      parse_string parse_state s = Option.some pr →
      parse_state.pos < pr.parse_state.pos) ∧
    (∀ (ch : Char) (parse_state : ParseState) (pr : Parsing),
      char ch parse_state = Option.some pr → parse_state.pos < pr.parse_state.pos) ∧
    (∀ (f : Char → Bool) (parse_state : ParseState) (pr : Parsing),
      take_while f false parse_state = Option.some pr →
      parse_state.pos < pr.parse_state.pos) ∧
    (∀ (parse_state : ParseState) (pr : Parsing),
      digits parse_state = Option.some pr → parse_state.pos < pr.parse_state.pos) ∧
    (∀ (parse_state : ParseState) (pr : Parsing),
      whitespace parse_state = Option.some pr → parse_state.pos < pr.parse_state.pos) := by
  refine ⟨?_, ?_, ?_, ?_, ?_⟩
  · intro parse_state s pr hs h
    obtain ⟨-, hpos, -⟩ := parse_string_some parse_state s pr h
    have : 0 < s.length := List.length_pos.mpr hs
    omega
  · intro ch parse_state pr h
    obtain ⟨hpr, -⟩ := char_some ch parse_state pr h
    subst hpr
    exact Nat.lt_succ_self _
  · intro f parse_state pr h
    obtain ⟨-, hpos, hne⟩ := take_while_some f false parse_state pr h
    have hge := twLoop_ge f (parse_state.text.drop parse_state.pos) parse_state.pos
    have := hne rfl
    omega
  · intro parse_state pr h
    obtain ⟨-, hpos, hne⟩ := digits_some parse_state pr h
    have hge := twLoop_ge Char.isDigit (parse_state.text.drop parse_state.pos) parse_state.pos
    omega
  · intro parse_state pr h
    obtain ⟨-, hpos, hne⟩ := whitespace_some parse_state pr h
    have hge :=
      twLoop_ge Char.isWhitespace (parse_state.text.drop parse_state.pos) parse_state.pos
    omega

/-- C8: `until(pred)` produces, at every cursor, exactly the outcome of
`take_while` applied to the pointwise negation of `pred` (with the same
`allow_empty = False` default): same success or failure, same value, same
resulting cursor. -/
theorem until_eq_take_while_negation (match_char_fn : Char → Bool) (parse_state : ParseState) :
    until_ match_char_fn parse_state =
      take_while (fun x => ! match_char_fn x) false parse_state := rfl

theorem getLast?_append_singleton {α : Type} (l : List α) (a : α) :
    (l ++ [a]).getLast? = some a := by
  simp

/-- The result list of the `many` loop is at least as long as the
accumulator it starts from. -/
theorem manyLoop_length (p : Parser) (sep : Option Parser) :
    ∀ (fuel : Nat) (st prior : ParseState) (acc vs : List Value) (st' : ParseState),
    manyLoop p sep fuel st prior acc = Option.some (vs, st') →
    acc.length ≤ vs.length := by
  intro fuel
  induction fuel with
  | zero =>
    intro st prior acc vs st' h
    exact absurd h (by simp [manyLoop])
  | succ n ih =>
    intro st prior acc vs st' h
    rw [manyLoop] at h
    cases hp : p st with
    | none =>
      rw [hp] at h
      simp only [Option.some.injEq, Prod.mk.injEq] at h
      rw [h.1]
    | some parsing =>
      rw [hp] at h
      simp only [] at h
      cases sep with
      | none =>
        have := ih parsing.parse_state parsing.parse_state (acc ++ [parsing.value]) vs st' h
        simp only [List.length_append, List.length_cons, List.length_nil] at this
        omega
      | some q =>
        simp only [] at h
        cases hq : q parsing.parse_state with
        | none =>
          rw [hq] at h
          simp only [Option.some.injEq, Prod.mk.injEq] at h
          have := h.1
          subst this
          simp
        | some sp =>
          rw [hq] at h
          have := ih sp.parse_state parsing.parse_state (acc ++ [parsing.value]) vs st' h
          simp only [List.length_append, List.length_cons, List.length_nil] at this
          omega

/-- Loop invariant of `many` with a separator: whenever the loop returns,
the returned state is the state right after the last successfully parsed
element (or the initial state when no element was parsed).  The invariant
carried through the iterations: `prior_parse_state` is either the initial
state (with nothing accumulated yet) or the end state of the element whose
value was accumulated last. -/
theorem manyLoop_last_elem (p sep : Parser) (stInit : ParseState) :
    ∀ (fuel : Nat) (st prior : ParseState) (acc vs : List Value) (st' : ParseState),
    ((acc = [] ∧ prior = stInit ∧ st = stInit) ∨
      ∃ stp v, p stp = Option.some ⟨v, prior⟩ ∧ acc.getLast? = some v) →
    manyLoop p (Option.some sep) fuel st prior acc = Option.some (vs, st') →
    ((vs = [] ∧ st' = stInit) ∨
      ∃ stp v, p stp = Option.some ⟨v, st'⟩ ∧ vs.getLast? = some v) := by
  intro fuel
  induction fuel with
  | zero =>
    intro st prior acc vs st' _ h
    exact absurd h (by simp [manyLoop])
  | succ n ih =>
    intro st prior acc vs st' hinv h
    rw [manyLoop] at h
    cases hp : p st with
    | none =>
      rw [hp] at h
      simp only [Option.some.injEq, Prod.mk.injEq] at h
      obtain ⟨h1, h2⟩ := h
      subst h1; subst h2
      cases hinv with
      | inl hl => exact Or.inl ⟨hl.1, hl.2.1⟩
      | inr hr => exact Or.inr hr
    | some parsing =>
      rw [hp] at h
      simp only [] at h
      cases hq : sep parsing.parse_state with
      | none =>
        rw [hq] at h
        simp only [Option.some.injEq, Prod.mk.injEq] at h
        obtain ⟨h1, h2⟩ := h
        subst h1; subst h2
        exact Or.inr ⟨st, parsing.value, by rw [hp], getLast?_append_singleton _ _⟩
      | some sepParsing =>
        rw [hq] at h
        refine ih sepParsing.parse_state parsing.parse_state (acc ++ [parsing.value]) vs st'
          (Or.inr ⟨st, parsing.value, by rw [hp], getLast?_append_singleton _ _⟩) h

/-- In the separator-free form of the `many` loop, the element parser fails
at the state the loop returns (the loop only stops on that failure, and
`prior_parse_state` has just been set to the current state). -/
theorem manyLoop_noSep_fail_at_result (p : Parser) :
    ∀ (fuel : Nat) (st : ParseState) (acc vs : List Value) (st' : ParseState),
    manyLoop p Option.none fuel st st acc = Option.some (vs, st') →
    p st' = Option.none := by
  intro fuel
  induction fuel with
  | zero =>
    intro st acc vs st' h
    exact absurd h (by simp [manyLoop])
  | succ n ih =>
    intro st acc vs st' h
    rw [manyLoop] at h
    cases hp : p st with
    | none =>
      rw [hp] at h
      simp only [Option.some.injEq, Prod.mk.injEq] at h
      rw [← h.2]
      exact hp
    | some parsing =>
      rw [hp] at h
      simp only [] at h
      exact ih parsing.parse_state (acc ++ [parsing.value]) vs st' h

/-- When the element parser strictly advances on success and respects the
cursor bounds, `fuel` of one more than the remaining input length is
enough for the separator-free `many` loop to return. -/
theorem manyLoop_noSep_total (p : Parser) (hb : BoundsOK p) (hp : Progresses p) :
    ∀ (fuel : Nat) (st prior : ParseState) (acc : List Value),
    st.pos ≤ st.text.length → st.text.length + 1 - st.pos ≤ fuel →
    ∃ out, manyLoop p Option.none fuel st prior acc = Option.some out := by
  intro fuel
  induction fuel with
  | zero =>
    intro st prior acc hpos hfuel
    omega
  | succ n ih =>
    intro st prior acc hpos hfuel
    rw [manyLoop]
    cases hps : p st with
    | none => exact ⟨(acc, prior), rfl⟩
    | some parsing =>
      simp only []
      have hbb := hb st parsing hpos hps
      have hadv := hp st parsing hps
      have hrec := ih parsing.parse_state parsing.parse_state (acc ++ [parsing.value])
        (by rw [hbb.1]; exact hbb.2) (by rw [hbb.1]; omega)
      exact hrec

/-- The `many` loop never returns when its element parser is
`option(char('a'))` and the input is empty: the element parser succeeds at
width zero on every iteration, so the Python `while True` loop never
exits. -/
theorem manyLoop_optchar_diverges :
    ∀ (fuel : Nat) (prior : ParseState) (acc : List Value),
    manyLoop (option (char 'a') Value.vnone) Option.none fuel ⟨[], 0⟩ prior acc =
      Option.none := by
  intro fuel
  induction fuel with
  | zero => intro prior acc; rfl
  | succ n ih =>
    intro prior acc
    exact ih ⟨[], 0⟩ (acc ++ [Value.vnone])

/-- The value of `many(parser, sep_by)` is the empty list exactly when the
element parser fails at the starting cursor. -/
theorem many_empty_iff (p : Parser) (sep_by : SepBy) (fuel : Nat) (st : ParseState)
    (vs : List Value) (st' : ParseState)
    (h : many p sep_by fuel st = Option.some (vs, st')) :
    (vs = [] ↔ p st = Option.none) := by
  cases fuel with
  | zero => exact absurd h (by simp [many, manyLoop])
  | succ n =>
    rw [many, manyLoop] at h
    cases hp : p st with
    | none =>
      rw [hp] at h
      simp only [Option.some.injEq, Prod.mk.injEq] at h
      exact iff_of_true h.1.symm rfl
    | some parsing =>
      rw [hp] at h
      simp only [] at h
      refine iff_of_false ?_ (by simp)
      cases hsep : normalizeSep sep_by with
      | none =>
        rw [hsep] at h
        have := manyLoop_length p Option.none n parsing.parse_state parsing.parse_state
          ([] ++ [parsing.value]) vs st' h
        intro hnil
        rw [hnil] at this
        simp at this
      | some q =>
        rw [hsep] at h
        simp only [] at h
        cases hq : q parsing.parse_state with
        | none =>
          rw [hq] at h
          simp only [Option.some.injEq, Prod.mk.injEq] at h
          intro hnil
          rw [hnil] at h
          simp at h
        | some sp =>
          rw [hq] at h
          have := manyLoop_length p (Option.some q) n sp.parse_state parsing.parse_state
            ([] ++ [parsing.value]) vs st' h
          intro hnil
          rw [hnil] at this
          simp at this

/-- C1: with a separator, the state at which `many(P, sep_by=S)` returns is
always the position immediately after the last successfully parsed element
— whether the iteration stopped because the separator failed (`break`,
returning the post-element state) or because the separator succeeded and
the required following element failed (returning `prior_parse_state`,
discarding the trailing separator) — and in particular
`many(char('a'), sep_by=",")` on `"a,a,a-b"` at position 0 succeeds with
value `['a','a','a']` and next position 5. -/
theorem many_sep_returns_after_last_element :
    (∀ (p sep : Parser) (stInit : ParseState) (fuel : Nat) (vs : List Value)
      (st' : ParseState),
      manyLoop p (Option.some sep) fuel stInit stInit [] = Option.some (vs, st') →
      ((vs = [] ∧ st' = stInit) ∨
        ∃ stp v, p stp = Option.some ⟨v, st'⟩ ∧ vs.getLast? = some v)) ∧
    ManyReturns (char 'a') (SepBy.str [',']) ⟨['a', ',', 'a', ',', 'a', '-', 'b'], 0⟩
      ([Value.vstr ['a'], Value.vstr ['a'], Value.vstr ['a']],
        ⟨['a', ',', 'a', ',', 'a', '-', 'b'], 5⟩) := by
  constructor
  · intro p sep stInit fuel vs st' h
    exact manyLoop_last_elem p sep stInit fuel stInit stInit [] vs st'
      (Or.inl ⟨rfl, rfl, rfl⟩) h
  · exact ⟨3, rfl⟩

/-- C2 counterexample: with the element parser `option(char('a'))` — which
succeeds without consuming input — `many` does not return at all on the
empty input: no number of loop iterations makes its `while True` loop
exit, so the claim's "always returns a successful outcome" fails for this
parser and cursor. -/
theorem many_zero_width_element_diverges :
    ManyDiverges (option (char 'a') Value.vnone) SepBy.none ⟨[], 0⟩ :=
  fun fuel => manyLoop_optchar_diverges fuel ⟨[], 0⟩ []

/-- C2 (amended): `many(P)` never returns a failure — every exit of its
loop is a success carrying a (possibly empty) list of values — and for
every element parser that respects the cursor bounds and strictly
advances the cursor on success (so that the loop cannot iterate without
consuming), `many(P)` terminates and returns such a successful outcome at
every in-bounds cursor.  For a parser that succeeds without consuming
input, `many(P)` need not return at all (see the counterexample). -/
theorem many_returns_success_for_progressing (p : Parser) (hb : BoundsOK p)
    (hp : Progresses p) (st : ParseState) (hst : st.pos ≤ st.text.length) :
    ∃ vs st', ManyReturns p SepBy.none st (vs, st') := by
  obtain ⟨⟨vs, st'⟩, hout⟩ := manyLoop_noSep_total p hb hp (st.text.length + 1 - st.pos)
    st st [] hst (Nat.le_refl _)
  exact ⟨vs, st', st.text.length + 1 - st.pos, hout⟩

/-- C6: `many1(P, sep_by)` fails exactly when `P` fails at the starting
cursor, and otherwise returns exactly what `many(P, sep_by)` returns at
that cursor (the same value list and the same resulting state). -/
theorem many1_fails_iff_parser_fails (p : Parser) (sep_by : SepBy) (fuel : Nat)
    (st : ParseState) (vs : List Value) (st' : ParseState)
    (h : many p sep_by fuel st = Option.some (vs, st')) :
    (many1Run p sep_by fuel st = Option.some Option.none ↔ p st = Option.none) ∧
    (p st ≠ Option.none →
      many1Run p sep_by fuel st = Option.some (Option.some ⟨Value.vlist vs, st'⟩)) := by
  have hempty := many_empty_iff p sep_by fuel st vs st' h
  rw [many1Run, h]
  cases vs with
  | nil =>
    constructor
    · exact iff_of_true rfl (hempty.mp rfl)
    · intro hne
      exact absurd (hempty.mp rfl) hne
  | cons v rest =>
    constructor
    · refine iff_of_false (by simp) ?_
      intro hnone
      exact absurd (hempty.mpr hnone) (by simp)
    · intro _
      rfl

/-- C6 witness at a concrete input: `many1(char('a'))` on `"a"`. -/
theorem many1_fails_iff_witness :
    (many1Run (char 'a') SepBy.none 2 ⟨['a'], 0⟩ = Option.some Option.none ↔
      char 'a' ⟨['a'], 0⟩ = Option.none) ∧
    (char 'a' ⟨['a'], 0⟩ ≠ Option.none →
      many1Run (char 'a') SepBy.none 2 ⟨['a'], 0⟩ =
        Option.some (Option.some ⟨Value.vlist [Value.vstr ['a']], ⟨['a'], 1⟩⟩)) :=
  many1_fails_iff_parser_fails (char 'a') SepBy.none 2 ⟨['a'], 0⟩
    [Value.vstr ['a']] ⟨['a'], 1⟩ rfl

/-- C7: whenever `many(P)` (no separator) returns, the element parser fails
at the returned cursor, so re-invoking the same `many(P)` there returns
the empty sequence at that same cursor (exhaustion idempotence). -/
theorem many_exhaustion_idempotence (p : Parser) (st : ParseState) (vs : List Value)
    (st' : ParseState) (h : ManyReturns p SepBy.none st (vs, st')) :
    ManyReturns p SepBy.none st' ([], st') := by
  obtain ⟨fuel, hf⟩ := h
  have hfail : p st' = Option.none :=
    manyLoop_noSep_fail_at_result p fuel st [] vs st' hf
  refine ⟨1, ?_⟩
  rw [many, manyLoop]
  rw [show normalizeSep SepBy.none = Option.none from rfl, hfail]

/-- C7 witness at a concrete input: `many(char('a'))` on `"ab"` returns at
position 1, and re-invoking it there yields the empty sequence at 1. -/
theorem many_exhaustion_idempotence_witness :
    ManyReturns (char 'a') SepBy.none ⟨['a', 'b'], 1⟩ ([], ⟨['a', 'b'], 1⟩) :=
  many_exhaustion_idempotence (char 'a') ⟨['a', 'b'], 0⟩ [Value.vstr ['a']]
    ⟨['a', 'b'], 1⟩ ⟨2, rfl⟩

theorem boundsOK_string (s : List Char) : BoundsOK (string s) := by
  intro st pr _ h
  obtain ⟨ht, hp2, hp3⟩ := parse_string_some st s pr h
  exact ⟨ht, by omega⟩

theorem boundsOK_char (ch : Char) : BoundsOK (char ch) := by
  intro st pr _ h
  obtain ⟨hpr, hlt⟩ := char_some ch st pr h
  subst hpr
  refine ⟨rfl, ?_⟩
  show st.pos + 1 ≤ st.text.length
  omega

theorem progresses_char (ch : Char) : Progresses (char ch) := by
  intro st pr h
  obtain ⟨hpr, -⟩ := char_some ch st pr h
  subst hpr
  exact Nat.lt_succ_self _

theorem boundsOK_not_char (ch : Char) : BoundsOK (not_char ch) := by
  intro st pr _ h
  obtain ⟨hpr, hlt⟩ := not_char_some ch st pr h
  rw [hpr]
  refine ⟨rfl, ?_⟩
  show st.pos + 1 ≤ st.text.length
  omega

theorem boundsOK_take_while (f : Char → Bool) (allow_empty : Bool) :
    BoundsOK (take_while f allow_empty) := by
  intro st pr hpos h
  obtain ⟨ht, hp2, -⟩ := take_while_some f allow_empty st pr h
  refine ⟨ht, ?_⟩
  have hle := twLoop_le f (st.text.drop st.pos) st.pos
  rw [List.length_drop] at hle
  omega

theorem boundsOK_until_ (f : Char → Bool) : BoundsOK (until_ f) :=
  boundsOK_take_while (fun x => ! f x) false

theorem boundsOK_whitespace : BoundsOK whitespace := by
  intro st pr hpos h
  obtain ⟨ht, hp2, -⟩ := whitespace_some st pr h
  refine ⟨ht, ?_⟩
  have hle := twLoop_le Char.isWhitespace (st.text.drop st.pos) st.pos
  rw [List.length_drop] at hle
  omega

theorem boundsOK_digits : BoundsOK digits := by
  intro st pr hpos h
  obtain ⟨ht, hp2, -⟩ := digits_some st pr h
  refine ⟨ht, ?_⟩
  have hle := twLoop_le Char.isDigit (st.text.drop st.pos) st.pos
  rw [List.length_drop] at hle
  omega

theorem boundsOK_end_of_input : BoundsOK end_of_input := by
  intro st pr hpos h
  obtain ⟨hpr, -⟩ := end_of_input_some st pr h
  rw [hpr]
  exact ⟨rfl, hpos⟩

theorem boundsOK_strings : ∀ args : List (List Char), BoundsOK (strings args) := by
  intro args
  induction args with
  | nil => intro st pr _ h; exact absurd h (by simp [strings])
  | cons arg rest ih =>
    intro st pr hpos h
    rw [strings] at h
    cases hps : parse_string st arg with
    | some parsing =>
      rw [hps] at h
      simp only [Option.some.injEq] at h
      obtain ⟨ht, hp2, hp3⟩ := parse_string_some st arg parsing hps
      rw [← h]
      exact ⟨ht, by omega⟩
    | none =>
      rw [hps] at h
      exact ih st pr hpos h

theorem boundsOK_option (p : Parser) (otherwise : Value) (hb : BoundsOK p) :
    BoundsOK (option p otherwise) := by
  intro st pr hpos h
  rw [option] at h
  cases hp : p st with
  | some parsing =>
    rw [hp] at h
    simp only [Option.some.injEq] at h
    subst h
    exact hb st parsing hpos hp
  | none =>
    rw [hp] at h
    simp only [Option.some.injEq] at h
    subst h
    exact ⟨rfl, hpos⟩

theorem boundsOK_whole (p : Parser) (hb : BoundsOK p) : BoundsOK (whole p) := by
  intro st pr hpos h
  rw [whole] at h
  cases hp : p st with
  | some parsing =>
    rw [hp] at h
    simp only [] at h
    cases he : end_of_input parsing.parse_state with
    | some e =>
      rw [he] at h
      simp only [Option.some.injEq] at h
      rw [← h]
      exact hb st parsing hpos hp
    | none => rw [he] at h; exact absurd h (by simp)
  | none => rw [hp] at h; exact absurd h (by simp)

theorem boundsOK_lift (f : Value → Value) (p : Parser) (hb : BoundsOK p) :
    BoundsOK (lift f p) := by
  intro st pr hpos h
  rw [lift] at h
  cases hp : p st with
  | some parsing =>
    rw [hp] at h
    simp only [Option.some.injEq] at h
    subst h
    exact hb st parsing hpos hp
  | none => rw [hp] at h; exact absurd h (by simp)

theorem boundsOK_skip_space (p : Parser) (fail_without_whitespace : Bool)
    (hb : BoundsOK p) : BoundsOK (skip_space p fail_without_whitespace) := by
  intro st pr hpos h
  rw [skip_space] at h
  cases hw : whitespace st with
  | none =>
    rw [hw] at h
    simp only [] at h
    split at h
    · exact absurd h (by simp)
    · exact hb st pr hpos h
  | some wpr =>
    rw [hw] at h
    simp only [] at h
    obtain ⟨hwt, hwp⟩ := boundsOK_whitespace st wpr hpos hw
    have := hb wpr.parse_state pr (by rw [hwt]; exact hwp) h
    rw [hwt] at this
    exact this

theorem boundsOK_chomp_space (p : Parser) (hb : BoundsOK p) :
    BoundsOK (chomp_space p) :=
  boundsOK_skip_space p false hb

theorem any_of_bounds :
    ∀ (parsers : List Parser) (st : ParseState) (pr : Parsing),
    (∀ q ∈ parsers, BoundsOK q) → st.pos ≤ st.text.length →
    any_of parsers st = AnyOfOutcome.ok pr →
    pr.parse_state.text = st.text ∧ pr.parse_state.pos ≤ st.text.length := by
  intro parsers
  induction parsers with
  | nil => intro st pr _ _ h; exact absurd h (by simp [any_of])
  | cons q rest ih =>
    intro st pr hall hpos h
    rw [any_of] at h
    cases hq : q st with
    | some parsing =>
      rw [hq] at h
      simp only [] at h
      split at h
      · rename_i hadv
        cases h
        exact hall q (List.mem_cons_self q rest) st _ hpos hq
      · exact AnyOfOutcome.noConfusion h
    | none =>
      rw [hq] at h
      exact ih st pr (fun r hr => hall r (List.mem_cons_of_mem q hr)) hpos h

theorem seqLoop_bounds :
    ∀ (parsers : List Parser) (st : ParseState) (acc vs : List Value) (st' : ParseState),
    (∀ q ∈ parsers, BoundsOK q) → st.pos ≤ st.text.length →
    seqLoop parsers st acc = Option.some (vs, st') →
    st'.text = st.text ∧ st'.pos ≤ st.text.length := by
  intro parsers
  induction parsers with
  | nil =>
    intro st acc vs st' _ hpos h
    rw [seqLoop] at h
    simp only [Option.some.injEq, Prod.mk.injEq] at h
    rw [← h.2]
    exact ⟨rfl, hpos⟩
  | cons q rest ih =>
    intro st acc vs st' hall hpos h
    rw [seqLoop] at h
    cases hq : q st with
    | none => rw [hq] at h; exact absurd h (by simp)
    | some parsing =>
      rw [hq] at h
      obtain ⟨ht, hp2⟩ := hall q (List.mem_cons_self q rest) st parsing hpos hq
      have := ih parsing.parse_state (acc ++ [parsing.value]) vs st'
        (fun r hr => hall r (List.mem_cons_of_mem q hr)) (by rw [ht]; exact hp2) h
      rw [ht] at this
      exact this

theorem sequence_bounds (parsers : List Parser) (st : ParseState) (pr : Parsing)
    (hall : ∀ q ∈ parsers, BoundsOK q) (hpos : st.pos ≤ st.text.length)
    (h : sequence parsers st = SeqResult.ok pr) :
    pr.parse_state.text = st.text ∧ pr.parse_state.pos ≤ st.text.length := by
  cases parsers with
  | nil => exact absurd h (by simp [sequence])
  | cons q rest =>
    rw [sequence] at h
    cases hl : seqLoop (q :: rest) st [] with
    | none => rw [hl] at h; exact absurd h (by simp)
    | some out =>
      rw [hl] at h
      obtain ⟨vs, st2⟩ := out
      simp only [SeqResult.ok.injEq] at h
      have hb := seqLoop_bounds (q :: rest) st [] vs st2 hall hpos hl
      rw [← h]
      exact hb

theorem manyLoop_bounds (p : Parser) (sep : Option Parser) (hb : BoundsOK p)
    (hsep : ∀ q, sep = Option.some q → BoundsOK q) :
    ∀ (fuel : Nat) (st prior : ParseState) (acc vs : List Value) (st' : ParseState),
    st.pos ≤ st.text.length → prior.text = st.text → prior.pos ≤ st.text.length →
    manyLoop p sep fuel st prior acc = Option.some (vs, st') →
    st'.text = st.text ∧ st'.pos ≤ st.text.length := by
  intro fuel
  induction fuel with
  | zero =>
    intro st prior acc vs st' _ _ _ h
    exact absurd h (by simp [manyLoop])
  | succ n ih =>
    intro st prior acc vs st' hpos hpt hpp h
    rw [manyLoop] at h
    cases hp : p st with
    | none =>
      rw [hp] at h
      simp only [Option.some.injEq, Prod.mk.injEq] at h
      rw [← h.2]
      exact ⟨hpt, hpp⟩
    | some parsing =>
      rw [hp] at h
      simp only [] at h
      obtain ⟨ht1, hp1⟩ := hb st parsing hpos hp
      cases sep with
      | none =>
        have := ih parsing.parse_state parsing.parse_state (acc ++ [parsing.value]) vs st'
          (by rw [ht1]; exact hp1) rfl (by rw [ht1]; exact hp1) h
        rw [ht1] at this
        exact this
      | some q =>
        simp only [] at h
        cases hq : q parsing.parse_state with
        | none =>
          rw [hq] at h
          simp only [Option.some.injEq, Prod.mk.injEq] at h
          rw [← h.2]
          exact ⟨ht1, hp1⟩
        | some sp =>
          rw [hq] at h
          obtain ⟨ht2, hp2⟩ := hsep q rfl parsing.parse_state sp
            (by rw [ht1]; exact hp1) hq
          rw [ht1] at ht2 hp2
          have := ih sp.parse_state parsing.parse_state (acc ++ [parsing.value]) vs st'
            (by rw [ht2]; exact hp2) (by rw [ht1, ht2]) (by rw [ht2]; exact hp1)
            h
          rw [ht2] at this
          exact this

/-- The separator `many` actually runs with is bounds-respecting whenever
the `sep_by` argument is `None`, a string literal, or a bounds-respecting
parser. -/
theorem boundsOK_normalizeSep (sep_by : SepBy)
    (hsep : ∀ q, sep_by = SepBy.parser q → BoundsOK q) :
    ∀ q, normalizeSep sep_by = Option.some q → BoundsOK q := by
  intro q hq
  cases sep_by with
  | none => exact absurd hq (by simp [normalizeSep])
  | str s =>
    rw [normalizeSep] at hq
    simp only [Option.some.injEq] at hq
    rw [← hq]
    exact boundsOK_string s
  | parser r =>
    rw [normalizeSep] at hq
    simp only [Option.some.injEq] at hq
    rw [← hq]
    exact hsep r rfl

/-- C2 witness at a concrete input: `many(char('a'))` returns a successful
outcome on `"ab"` at position 0 (its element parser is bounds-respecting
and strictly advancing). -/
theorem many_returns_success_witness :
    ∃ vs st', ManyReturns (char 'a') SepBy.none ⟨['a', 'b'], 0⟩ (vs, st') :=
  many_returns_success_for_progressing (char 'a') (boundsOK_char 'a')
    (progresses_char 'a') ⟨['a', 'b'], 0⟩ (by decide)

/-- C9: every matcher of the library maps an in-bounds cursor
(`0 ≤ pos ≤ length text`, the lower bound being implicit in the position's
type) to an in-bounds cursor over the same, unmodified text whenever it
succeeds — the primitives unconditionally, and each combinator provided
its component parsers do so themselves (for `many`/`many1` this covers a
`sep_by` that is absent, a string literal, or a bounds-respecting
parser). -/
theorem cursor_bounds_invariant :
    (∀ s, BoundsOK (string s)) ∧
    (∀ ch, BoundsOK (char ch)) ∧
    (∀ ch, BoundsOK (not_char ch)) ∧
    (∀ f allow_empty, BoundsOK (take_while f allow_empty)) ∧
    (∀ f, BoundsOK (until_ f)) ∧
    BoundsOK whitespace ∧
    BoundsOK digits ∧
    BoundsOK end_of_input ∧
    (∀ args, BoundsOK (strings args)) ∧
    BoundsOK parse_until_colon_or_whitespace ∧
    (∀ p v, BoundsOK p → BoundsOK (option p v)) ∧
    (∀ p, BoundsOK p → BoundsOK (whole p)) ∧
    (∀ f p, BoundsOK p → BoundsOK (lift f p)) ∧
    (∀ p b, BoundsOK p → BoundsOK (skip_space p b)) ∧
    (∀ p, BoundsOK p → BoundsOK (chomp_space p)) ∧
    (∀ parsers st pr, (∀ q ∈ parsers, BoundsOK q) → st.pos ≤ st.text.length →
      any_of parsers st = AnyOfOutcome.ok pr →
      pr.parse_state.text = st.text ∧ pr.parse_state.pos ≤ st.text.length) ∧
    (∀ parsers st pr, (∀ q ∈ parsers, BoundsOK q) → st.pos ≤ st.text.length →
      sequence parsers st = SeqResult.ok pr →
      pr.parse_state.text = st.text ∧ pr.parse_state.pos ≤ st.text.length) ∧
    (∀ p sep_by st vs st', BoundsOK p →
      (∀ q, sep_by = SepBy.parser q → BoundsOK q) →
      st.pos ≤ st.text.length → ManyReturns p sep_by st (vs, st') →
      st'.text = st.text ∧ st'.pos ≤ st.text.length) ∧
    (∀ p sep_by fuel st pr, BoundsOK p →
      (∀ q, sep_by = SepBy.parser q → BoundsOK q) →
      st.pos ≤ st.text.length →
      many1Run p sep_by fuel st = Option.some (Option.some pr) →
      pr.parse_state.text = st.text ∧ pr.parse_state.pos ≤ st.text.length) := by
  refine ⟨boundsOK_string, boundsOK_char, boundsOK_not_char, boundsOK_take_while,
    boundsOK_until_, boundsOK_whitespace, boundsOK_digits, boundsOK_end_of_input,
    boundsOK_strings, boundsOK_until_ _,
    fun p v hb => boundsOK_option p v hb,
    fun p hb => boundsOK_whole p hb,
    fun f p hb => boundsOK_lift f p hb,
    fun p b hb => boundsOK_skip_space p b hb,
    fun p hb => boundsOK_chomp_space p hb,
    any_of_bounds, sequence_bounds, ?_, ?_⟩
  · intro p sep_by st vs st' hb hsep hpos hret
    obtain ⟨fuel, hf⟩ := hret
    exact manyLoop_bounds p (normalizeSep sep_by) hb (boundsOK_normalizeSep sep_by hsep)
      fuel st st [] vs st' hpos rfl hpos hf
  · intro p sep_by fuel st pr hb hsep hpos h
    rw [many1Run] at h
    cases hm : many p sep_by fuel st with
    | none => rw [hm] at h; exact absurd h (by simp)
    | some out =>
      rw [hm] at h
      obtain ⟨vs, st2⟩ := out
      cases vs with
      | nil => exact absurd h (by simp)
      | cons v rest =>
        simp only [Option.some.injEq] at h
        rw [← h]
        exact manyLoop_bounds p (normalizeSep sep_by) hb
          (boundsOK_normalizeSep sep_by hsep) fuel st st [] (v :: rest) st2 hpos rfl hpos hm

theorem any_of_fail_iff :
    ∀ (parsers : List Parser) (st : ParseState),
    any_of parsers st = AnyOfOutcome.fail ↔ ∀ q ∈ parsers, q st = Option.none := by
  intro parsers
  induction parsers with
  | nil => intro st; exact iff_of_true rfl (by simp)
  | cons q rest ih =>
    intro st
    rw [any_of]
    cases hq : q st with
    | some parsing =>
      simp only []
      refine iff_of_false ?_ ?_
      · intro hcontra
        split at hcontra
        · exact AnyOfOutcome.noConfusion hcontra
        · exact AnyOfOutcome.noConfusion hcontra
      · intro hall
        simp [hall q (List.mem_cons_self q rest)] at hq
    | none =>
      simp only []
      rw [List.forall_mem_cons]
      constructor
      · intro h
        exact ⟨hq, (ih st).mp h⟩
      · intro h
        exact (ih st).mpr h.2

theorem any_of_ok_iff :
    ∀ (parsers : List Parser) (st : ParseState) (pr : Parsing),
    any_of parsers st = AnyOfOutcome.ok pr ↔
      st.pos < pr.parse_state.pos ∧ FirstSuccess parsers st pr := by
  intro parsers
  induction parsers with
  | nil =>
    intro st pr
    refine iff_of_false (fun h => AnyOfOutcome.noConfusion h) ?_
    rintro ⟨-, hfs⟩
    cases hfs
  | cons q rest ih =>
    intro st pr
    rw [any_of]
    cases hq : q st with
    | some parsing =>
      simp only []
      by_cases hadv : parsing.parse_state.pos > st.pos
      · rw [if_pos hadv]
        constructor
        · intro h
          cases h
          exact ⟨hadv, FirstSuccess.head hq⟩
        · rintro ⟨hlt, hfs⟩
          cases hfs with
          | head h =>
            rw [hq] at h
            injection h with h
            rw [h]
          | tail h _ =>
            rw [hq] at h
            exact Option.noConfusion h
      · rw [if_neg hadv]
        refine iff_of_false (fun h => AnyOfOutcome.noConfusion h) ?_
        rintro ⟨hlt, hfs⟩
        cases hfs with
        | head h =>
          rw [hq] at h
          injection h with h
          rw [h] at hadv
          exact hadv hlt
        | tail h _ =>
          rw [hq] at h
          exact Option.noConfusion h
    | none =>
      simp only []
      rw [ih st pr]
      constructor
      · rintro ⟨hlt, hfs⟩
        exact ⟨hlt, FirstSuccess.tail hq hfs⟩
      · rintro ⟨hlt, hfs⟩
        refine ⟨hlt, ?_⟩
        cases hfs with
        | head h => rw [hq] at h; exact Option.noConfusion h
        | tail _ hrest => exact hrest

/-- C3 counterexample: `any_of([option(char('a'))])` at position 0 of the
empty input raises `AssertionError` even though its first (and only)
parser succeeds there — the zero-width success trips
`assert parsing.parse_state.pos > parse_state.pos` — so `any_of` neither
returns that first success nor fails. -/
theorem any_of_zero_width_assertion :
    any_of [option (char 'a') Value.vnone] ⟨[], 0⟩ = AnyOfOutcome.assertionError ∧
    option (char 'a') Value.vnone ⟨[], 0⟩ = Option.some ⟨Value.vnone, ⟨[], 0⟩⟩ :=
  ⟨rfl, rfl⟩

/-- C3 (amended): `any_of([P1,...,Pn])` returns the outcome of the first
`Pi` that succeeds at the cursor — trying them in the given order —
provided that outcome strictly advances the cursor (a zero-width first
success raises `AssertionError` instead of being returned), and it fails
if and only if every `Pi` fails at that cursor. -/
theorem any_of_ordered_alternation :
    (∀ (parsers : List Parser) (st : ParseState) (pr : Parsing),
      any_of parsers st = AnyOfOutcome.ok pr ↔
        st.pos < pr.parse_state.pos ∧ FirstSuccess parsers st pr) ∧
    (∀ (parsers : List Parser) (st : ParseState),
      any_of parsers st = AnyOfOutcome.fail ↔ ∀ q ∈ parsers, q st = Option.none) :=
  ⟨any_of_ok_iff, any_of_fail_iff⟩

theorem seqLoop_some_iff :
    ∀ (parsers : List Parser) (st : ParseState) (acc vs' : List Value) (st' : ParseState),
    seqLoop parsers st acc = Option.some (vs', st') ↔
      ∃ vs, vs' = acc ++ vs ∧ SeqThread parsers st vs st' := by
  intro parsers
  induction parsers with
  | nil =>
    intro st acc vs' st'
    rw [seqLoop]
    constructor
    · intro h
      simp only [Option.some.injEq, Prod.mk.injEq] at h
      exact ⟨[], by simp [← h.1], h.2 ▸ SeqThread.nil st⟩
    · rintro ⟨vs, hvs, hth⟩
      cases hth
      simp [hvs]
  | cons q rest ih =>
    intro st acc vs' st'
    rw [seqLoop]
    cases hq : q st with
    | none =>
      refine iff_of_false (fun h => Option.noConfusion h) ?_
      rintro ⟨vs, -, hth⟩
      cases hth with
      | cons h _ => rw [hq] at h; exact Option.noConfusion h
    | some parsing =>
      rw [ih parsing.parse_state (acc ++ [parsing.value]) vs' st']
      constructor
      · rintro ⟨vs, hvs, hth⟩
        refine ⟨parsing.value :: vs, by simp [hvs], ?_⟩
        exact SeqThread.cons (by rw [hq]) hth
      · rintro ⟨vs, hvs, hth⟩
        cases hth with
        | cons h hrest =>
          rw [hq] at h
          injection h with h
          subst h
          exact ⟨_, by simp [hvs], hrest⟩

/-- C5 counterexample: at the empty list of parsers, every component
parser vacuously succeeds in the threading sense (witnessed by the
trivial `SeqThread`), yet `sequence([])` does not succeed: it raises
`NameError` instead of returning the vacuous empty value list. -/
theorem sequence_empty_not_vacuous :
    sequence [] ⟨['x'], 0⟩ = SeqResult.nameError ∧
    SeqThread [] ⟨['x'], 0⟩ [] ⟨['x'], 0⟩ :=
  ⟨rfl, SeqThread.nil ⟨['x'], 0⟩⟩

/-- C5 (amended): for every NON-empty list of parsers, `sequence` succeeds
iff every component succeeds, each consuming from the prior's end cursor
in order, and on success its value is the ordered list of their values;
any single component failure yields overall failure carrying no partial
value and no cursor (so the caller's original cursor is untouched).  For
the empty list `sequence` raises `NameError` instead of succeeding
vacuously (see the counterexample and C10). -/
theorem sequence_atomic (parsers : List Parser) (st : ParseState)
    (hne : parsers ≠ []) :
    (∀ (vs : List Value) (st' : ParseState),
      sequence parsers st = SeqResult.ok ⟨Value.vlist vs, st'⟩ ↔
        SeqThread parsers st vs st') ∧
    (sequence parsers st = SeqResult.fail ↔
      ¬ ∃ vs st', SeqThread parsers st vs st') := by
  cases parsers with
  | nil => exact absurd rfl hne
  | cons q rest =>
    rw [sequence]
    cases hl : seqLoop (q :: rest) st [] with
    | none =>
      constructor
      · intro vs st'
        refine iff_of_false (fun h => SeqResult.noConfusion h) ?_
        intro hth
        have := (seqLoop_some_iff (q :: rest) st [] vs st').mpr ⟨vs, by simp, hth⟩
        rw [hl] at this
        exact Option.noConfusion this
      · refine iff_of_true rfl ?_
        rintro ⟨vs, st', hth⟩
        have := (seqLoop_some_iff (q :: rest) st [] vs st').mpr ⟨vs, by simp, hth⟩
        rw [hl] at this
        exact Option.noConfusion this
    | some out =>
      obtain ⟨vs2, st2⟩ := out
      obtain ⟨vs3, hvs3, hth2⟩ := (seqLoop_some_iff (q :: rest) st [] vs2 st2).mp hl
      rw [List.nil_append] at hvs3
      rw [← hvs3] at hth2
      constructor
      · intro vs st'
        constructor
        · intro h
          simp only [SeqResult.ok.injEq, Parsing.mk.injEq, Value.vlist.injEq] at h
          rw [← h.1, ← h.2]
          exact hth2
        · intro hth
          have := (seqLoop_some_iff (q :: rest) st [] vs st').mpr ⟨vs, by simp, hth⟩
          rw [hl] at this
          simp only [Option.some.injEq, Prod.mk.injEq] at this
          rw [this.1, this.2]
      · refine iff_of_false (fun h => SeqResult.noConfusion h) ?_
        intro hcontra
        exact hcontra ⟨vs2, st2, hth2⟩

/-- C5 witness at a concrete input: `sequence([char('a')])` on `"a"`. -/
theorem sequence_atomic_witness :
    (∀ (vs : List Value) (st' : ParseState),
      sequence [char 'a'] ⟨['a'], 0⟩ = SeqResult.ok ⟨Value.vlist vs, st'⟩ ↔
        SeqThread [char 'a'] ⟨['a'], 0⟩ vs st') ∧
    (sequence [char 'a'] ⟨['a'], 0⟩ = SeqResult.fail ↔
      ¬ ∃ vs st', SeqThread [char 'a'] ⟨['a'], 0⟩ vs st') :=
  sequence_atomic [char 'a'] ⟨['a'], 0⟩ (by simp)

/-- C10: invoking the matcher built by `sequence` on the empty list of
parsers never produces a parse outcome: for every cursor the call reaches
the final `return Parsing(results, parsing.parse_state)` with the loop
variable `parsing` never bound, i.e. the `NameError` branch of the
embedding. -/
theorem sequence_empty_name_error (parse_state : ParseState) :
    sequence [] parse_state = SeqResult.nameError := rfl

end Lifted
